import Mathlib

/-!
Verification of the mux package: the glob-style pattern matcher Match
(src/mux.go) and the Method dispatch table (Method.ServeHTTP).

Go strings are modelled as lists of byte values (Nat below 256).  The
matcher loop of Match is modelled as a step function on the cursor state
plus a fuel-bounded runner; Go runtime panics (out-of-range string index,
reversed slice bounds) are modelled by the fault result.  The capture
list Vars is threaded through the runner separately, since the loop only
writes to it.
-/

namespace Mux

/-- A Go string: a list of byte values. -/
abbrev Str := List Nat

/-- Go strings.IndexByte: index of the first occurrence of the byte, or
none where Go returns minus one. -/
def indexByte : Str → Nat → Option Nat
  | [], _ => none
  | b :: rest, t => if b = t then some 0 else (indexByte rest t).map (fun i => i + 1)

theorem indexByte_lt_length (l : Str) (t i : Nat) (h : indexByte l t = some i) :
    i < l.length := by
  induction l generalizing i with
  | nil => simp [indexByte] at h
  | cons b rest ih =>
    unfold indexByte at h
    split at h
    · injection h with h
      simp [List.length_cons]
      omega
    · match hrec : indexByte rest t with
      | none => rw [hrec] at h; simp at h
      | some j =>
        rw [hrec] at h
        simp at h
        have := ih j hrec
        simp [List.length_cons]
        omega

theorem indexByte_isSome_of_mem (l : Str) (t : Nat) (h : t ∈ l) :
    ∃ i, indexByte l t = some i := by
  induction l with
  | nil => simp at h
  | cons b rest ih =>
    unfold indexByte
    split
    · exact ⟨0, rfl⟩
    · rcases List.mem_cons.mp h with h2 | h2
      · simp_all
      · obtain ⟨i, hi⟩ := ih h2
        exact ⟨i + 1, by rw [hi]; rfl⟩

/-- Byte value of the star wildcard. -/
def cStar : Nat := 42

/-- Byte value of the question-mark wildcard. -/
def cQmark : Nat := 63

/-- Byte value of the opening brace of a named capture. -/
def cLBrace : Nat := 123

/-- Byte value of the closing brace of a named capture. -/
def cRBrace : Nat := 125

/-- Byte value of the path separator. -/
def cSlash : Nat := 47

/-- The byte opens a variable-length wildcard term. -/
def wildByte (b : Nat) : Prop := b = cStar ∨ b = cLBrace

instance (b : Nat) : Decidable (wildByte b) := by unfold wildByte; infer_instance

/-- Lower bound for the second byte accepted after first byte b0, from the
acceptRanges table of Go package unicode/utf8. -/
def utf8AcceptLo (b0 : Nat) : Nat :=
  if b0 = 224 then 160 else if b0 = 240 then 144 else 128

/-- Upper bound for the second byte accepted after first byte b0, from the
acceptRanges table of Go package unicode/utf8. -/
def utf8AcceptHi (b0 : Nat) : Nat :=
  if b0 = 237 then 159 else if b0 = 244 then 143 else 191

/-- The size in bytes returned by Go utf8.DecodeRuneInString: the length of
a valid leading UTF-8 encoding, 1 on any invalid or truncated encoding,
0 on the empty string. -/
def utf8DecodeSize : Str → Nat
  | [] => 0
  | b0 :: rest =>
    if b0 < 128 then 1
    else if b0 < 194 then 1
    else if b0 < 224 then
      match rest with
      | b1 :: _ => if utf8AcceptLo b0 ≤ b1 ∧ b1 ≤ utf8AcceptHi b0 then 2 else 1
      | [] => 1
    else if b0 < 240 then
      match rest with
      | b1 :: b2 :: _ =>
        if (utf8AcceptLo b0 ≤ b1 ∧ b1 ≤ utf8AcceptHi b0) ∧ (128 ≤ b2 ∧ b2 ≤ 191) then 3 else 1
      | _ => 1
    else if b0 < 245 then
      match rest with
      | b1 :: b2 :: b3 :: _ =>
        if (utf8AcceptLo b0 ≤ b1 ∧ b1 ≤ utf8AcceptHi b0) ∧ (128 ≤ b2 ∧ b2 ≤ 191)
            ∧ (128 ≤ b3 ∧ b3 ≤ 191) then 4 else 1
      | _ => 1
    else 1

theorem utf8DecodeSize_pos (s : Str) (h : s ≠ []) : 1 ≤ utf8DecodeSize s := by
  match s with
  | [] => exact absurd rfl h
  | b0 :: rest =>
    unfold utf8DecodeSize
    repeat' split
    all_goals try omega
    all_goals simp_all

theorem utf8DecodeSize_le (s : Str) : utf8DecodeSize s ≤ s.length := by
  match s with
  | [] => simp [utf8DecodeSize]
  | b0 :: rest =>
    unfold utf8DecodeSize
    repeat' split
    all_goals simp_all

/-- The Go slice text[lo:hi] (meaningful when lo ≤ hi ≤ length). -/
def strSlice (s : Str) (lo hi : Nat) : Str := (s.take hi).drop lo

/-- The capture list: ordered key/value pairs (type Vars of src/mux.go). -/
abbrev Vars := List (Str × Str)

/-- Vars.Set (src/mux.go lines 91 to 99): overwrite the first pair with the
given key in place, else append a new pair. -/
def Vars.set (vars : Vars) (key value : Str) : Vars :=
  match vars with
  | [] => [(key, value)]
  | p :: rest => if p.1 = key then (key, value) :: rest else p :: Vars.set rest key value

/-- Vars.Get (src/mux.go lines 103 to 110): first value bound to the key,
or the empty string. -/
def Vars.get (vars : Vars) (key : Str) : Str :=
  match vars with
  | [] => []
  | p :: rest => if p.1 = key then p.2 else Vars.get rest key

/-- The local cursor state of Match (src/mux.go lines 32 to 36): capture
name, closer position nx, capture start vx, pattern and text cursors,
and the retry point. -/
structure MState where
  key : Str
  nx : Nat
  vx : Nat
  px : Nat
  tx : Nat
  nextPx : Nat
  nextTx : Nat
deriving DecidableEq, Repr

/-- Result of one loop iteration: continue with a new state and an optional
Vars.Set call, return false after Vars.Reset, or a Go runtime panic. -/
inductive StepRes where
  | cont (s : MState) (capture : Option (Str × Str))
  | retFalse
  | fault
deriving DecidableEq, Repr

/-- Result of the code after the loop: return true with an optional final
Vars.Set call, or a Go runtime panic. -/
inductive FinRes where
  | finOk (capture : Option (Str × Str))
  | finFault
deriving DecidableEq, Repr

/-- Overall result of Match: a boolean with the final capture list, a Go
runtime panic, or exhaustion of the loop bound (proved unreachable). -/
inductive MRes where
  | ok (b : Bool) (vars : Vars)
  | fault
  | timeout
deriving DecidableEq, Repr

/-- Lines 73 to 82 of src/mux.go: restart from the retry point if possible,
else reset and fail.  Reading pattern at nextPx faults when the pattern is
empty, and reading text at nextTx - 1 would fault when nextTx is zero. -/
def matchBacktrack (pattern text : Str) (s : MState) : StepRes :=
  if s.nextTx ≤ text.length then
    match pattern[s.nextPx]? with
    | none => .fault
    | some c =>
      if wildByte c then
        if s.nextTx = 0 then .fault
        else
          match text[s.nextTx - 1]? with
          | none => .fault
          | some d =>
            if d = cSlash then .retFalse
            else .cont { s with px := s.nextPx, tx := s.nextTx } none
      else .retFalse
  else .retFalse

/-- Lines 56 to 70 of src/mux.go, the star and lbrace case of the switch:
record the retry point, and for lbrace parse the capture name when it was
not already parsed for this position.  When the pattern holds no closing
brace after the opener, Go computes nx below px and the slice
pattern[px:nx] panics: fault. -/
def matchWildcard (pattern : Str) (s : MState) (c : Nat) : StepRes :=
  let s1 : MState := { s with nextPx := s.px, nextTx := s.tx + 1, px := s.px + 1 }
  if c = cLBrace then
    if s1.nx < s1.px then
      match indexByte (pattern.drop s1.px) cRBrace with
      | none => .fault
      | some i =>
        let key2 := (pattern.drop s1.px).take i
        .cont { s1 with vx := s.tx, nx := s1.px + i, key := key2,
                        px := s1.px + key2.length + 1 } none
    else .cont { s1 with px := s1.px + s.key.length + 1 } none
  else .cont s1 none

/-- Lines 41 to 47 of src/mux.go: a matching literal byte; when the previous
pattern byte is a closing brace, finalize the pending capture with the text
slice from vx to the current tx, then advance both cursors. -/
def matchLiteralAdvance (pattern text : Str) (s : MState) : StepRes :=
  if 0 < s.px then
    match pattern[s.px - 1]? with
    | none => .fault
    | some d =>
      if d = cRBrace then
        if s.vx ≤ s.tx ∧ s.tx ≤ text.length then
          .cont { s with px := s.px + 1, tx := s.tx + 1 }
                (some (s.key, strSlice text s.vx s.tx))
        else .fault
      else .cont { s with px := s.px + 1, tx := s.tx + 1 } none
  else .cont { s with px := s.px + 1, tx := s.tx + 1 } none

/-- One iteration of the loop body of Match (src/mux.go lines 37 to 83);
the switch reads the pattern byte at px. -/
def matchStep (pattern text : Str) (s : MState) : StepRes :=
  if s.px < pattern.length then
    if pattern.getD s.px 0 = cQmark then
      if s.tx < text.length ∧ text.getD s.tx 0 ≠ cSlash then
        .cont { s with px := s.px + 1, tx := s.tx + utf8DecodeSize (text.drop s.tx) } none
      else matchBacktrack pattern text s
    else if wildByte (pattern.getD s.px 0) then
      matchWildcard pattern s (pattern.getD s.px 0)
    else
      if s.tx < text.length ∧ text.getD s.tx 0 = pattern.getD s.px 0 then
        matchLiteralAdvance pattern text s
      else matchBacktrack pattern text s
  else matchBacktrack pattern text s

/-- Lines 84 to 87 of src/mux.go, after the loop exits: finalize a trailing
capture when the previous pattern byte is a closing brace, then report
success. -/
def matchFinal (pattern text : Str) (s : MState) : FinRes :=
  if 0 < s.px then
    match pattern[s.px - 1]? with
    | none => .finFault
    | some d =>
      if d = cRBrace then
        if s.vx ≤ s.tx ∧ s.tx ≤ text.length then
          .finOk (some (s.key, strSlice text s.vx s.tx))
        else .finFault
      else .finOk none
  else .finOk none

/-- Apply an optional recorded Vars.Set call to the capture list. -/
def applyCapture (vars : Vars) : Option (Str × Str) → Vars
  | none => vars
  | some kv => Vars.set vars kv.1 kv.2

/-- The loop of Match, bounded by fuel.  The loop guard is line 37 of
src/mux.go; a false return resets the capture list. -/
def matchRun (pattern text : Str) : Nat → MState → Vars → MRes
  | 0, _, _ => .timeout
  | fuel + 1, s, vars =>
    if s.px < pattern.length ∨ s.tx < text.length then
      match matchStep pattern text s with
      | .cont s2 cap => matchRun pattern text fuel s2 (applyCapture vars cap)
      | .retFalse => .ok false []
      | .fault => .fault
    else
      match matchFinal pattern text s with
      | .finOk cap => .ok true (applyCapture vars cap)
      | .finFault => .fault

/-- True when the pattern cursor sits on a variable-length wildcard and the
text cursor sits exactly at the retry position: the state reached right
after a backtrack resume. -/
def lowSt (pattern : Str) (s : MState) : Prop :=
  s.px < pattern.length ∧ wildByte (pattern.getD s.px 0) ∧ s.tx = s.nextTx

instance (pattern : Str) (s : MState) : Decidable (lowSt pattern s) := by
  unfold lowSt; infer_instance

/-- Ranking function for the loop: dominated by the distance from the saved
retry position nextTx to the end of the text, which never decreases and
strictly increases at every wildcard reopening. -/
def mMeasure (pattern text : Str) (s : MState) : Nat :=
  (text.length + 1 - s.nextTx) * (pattern.length + text.length + 2)
    + (pattern.length - s.px) + (text.length - s.tx)
    + (if lowSt pattern s then 0 else pattern.length + text.length + 1)

theorem mMeasure_of_low (pattern text : Str) (s : MState) (h : lowSt pattern s) :
    mMeasure pattern text s =
      (text.length + 1 - s.nextTx) * (pattern.length + text.length + 2)
        + (pattern.length - s.px) + (text.length - s.tx) := by
  unfold mMeasure
  rw [if_pos h]
  omega

theorem mMeasure_of_not_low (pattern text : Str) (s : MState) (h : ¬ lowSt pattern s) :
    mMeasure pattern text s =
      (text.length + 1 - s.nextTx) * (pattern.length + text.length + 2)
        + (pattern.length - s.px) + (text.length - s.tx)
        + (pattern.length + text.length + 1) := by
  unfold mMeasure
  rw [if_neg h]

/-- The initial cursor state of Match (src/mux.go lines 32 to 36). -/
def initState : MState :=
  { key := [], nx := 0, vx := 0, px := 0, tx := 0, nextPx := 0, nextTx := 0 }

/-- Loop bound: one more than the rank of the initial state. -/
def matchFuel (pattern text : Str) : Nat := mMeasure pattern text initState + 1

/-- Match (src/mux.go lines 31 to 88). -/
def Match (pattern text : Str) (vars : Vars) : MRes :=
  matchRun pattern text (matchFuel pattern text) initState vars

example : Match [97, 98, 99] [97, 98, 99] [] = .ok true [] := by decide
example : Match [42] [97, 98, 99] [] = .ok true [] := by decide
example : Match [123, 49, 125] [97, 98, 99] [] = .ok true [([49], [97, 98, 99])] := by decide
example : Match [42, 99] [97, 98, 99] [] = .ok true [] := by decide
example : Match [123, 49, 125, 99] [97, 98, 99] [] = .ok true [([49], [97, 98])] := by decide
example : Match [97, 42] [97] [] = .ok true [] := by decide
example : Match [97, 42] [97, 98, 47, 99] [] = .ok false [] := by decide
example : Match [97, 123, 49, 125] [97] [] = .ok true [([49], [])] := by decide
example : Match [97, 123, 49, 125] [97, 98, 47, 99] [] = .ok false [] := by decide
example : Match [97, 42, 47, 98] [97, 98, 99, 47, 98] [] = .ok true [] := by decide
example : Match [97, 42, 47, 98] [97, 47, 99, 47, 98] [] = .ok false [] := by decide
example : Match [97, 63, 98] [97, 226, 152, 186, 98] [] = .ok true [] := by decide
example : Match [97, 63, 63, 63, 98] [97, 226, 152, 186, 98] [] = .ok false [] := by decide
example : Match [97, 63, 98] [97, 47, 98] [] = .ok false [] := by decide
example : Match [42, 120] [120, 120, 120] [] = .ok true [] := by decide
example : Match [123, 49, 125, 120] [120, 120, 120] [] = .ok true [([49], [120, 120])] := by decide
example : Match [42, 47, 97] [47, 97] [] = .ok true [] := by decide
example : Match [47, 42] [47] [] = .ok true [] := by decide
example : Match [47, 123, 49, 125] [47] [] = .ok true [([49], [])] := by decide
example : Match [] [] [] = .ok true [] := by decide
example : Match [] [97] [] = .fault := by decide
example : Match [123, 97] [] [] = .fault := by decide
example : Match [123, 97] [120] [] = .fault := by decide
example : Match [123, 49, 125, 42] [97, 98] [] = .ok true [] := by decide
example : Match [125, 97] [125, 97] [] = .ok true [([], [125])] := by decide
example : Match [97, 63] [97] [] = .ok false [] := by decide
example : Match [97, 63] [97, 226, 152, 186] [] = .ok true [] := by decide
example : Match [97] [98] [([120], [121])] = .ok false [] := by decide
example : Match [97] [97] [([120], [121])] = .ok true [([120], [121])] := by decide

theorem getD_of_getElem? (l : Str) (i c : Nat) (h : l[i]? = some c) : l.getD i 0 = c := by
  rw [List.getD_eq_getElem?_getD, h]
  rfl

theorem lt_length_of_getElem? (l : Str) (i c : Nat) (h : l[i]? = some c) : i < l.length :=
  (List.getElem?_eq_some.mp h).1

theorem getD_mem_of_lt (l : Str) (i : Nat) (h : i < l.length) : l.getD i 0 ∈ l := by
  rw [List.getD_eq_getElem?_getD, List.getElem?_eq_getElem h]
  simp only [Option.getD_some]
  exact List.getElem_mem h

/-- Reachability invariant of the matcher loop, tying the cursors, the
retry point and the parsed capture name to the pattern and text bounds. -/
structure MInv (pattern text : Str) (s : MState) : Prop where
  px_le : s.px ≤ pattern.length
  tx_le : s.tx ≤ text.length
  ntx_le : s.nextTx ≤ s.tx + 1
  npx_le : s.nextPx ≤ s.px
  npx_lt : 0 < pattern.length → s.nextPx < pattern.length
  vx_tx : s.vx ≤ s.tx
  vx_ntx : s.vx ≤ s.nextTx
  hnx : s.nx = 0 ∨ (s.key.length + 1 ≤ s.nx ∧ s.nx < pattern.length ∧
    ((s.px + 1 = s.nx - s.key.length ∧ pattern.getD s.px 0 = cLBrace) ∨ s.nx + 1 ≤ s.px))
  hnpx : s.nx = 0 ∨
    ((s.nextPx + 1 = s.nx - s.key.length ∧ pattern.getD s.nextPx 0 = cLBrace) ∨
      s.nx + 1 ≤ s.nextPx)
  wz : s.nextTx = 0 → s.nextPx = 0 ∧ (s.px = 0 ∨ ¬ wildByte (pattern.getD 0 0))

theorem minv_init (pattern text : Str) : MInv pattern text initState := by
  constructor <;> simp [initState]

theorem matchBacktrack_cont_inv (pattern text : Str) (s s2 : MState)
    (cap : Option (Str × Str)) (hinv : MInv pattern text s)
    (hlow : ¬ lowSt pattern s)
    (h : matchBacktrack pattern text s = .cont s2 cap) :
    MInv pattern text s2 ∧ mMeasure pattern text s2 < mMeasure pattern text s := by
  unfold matchBacktrack at h
  split at h
  case isFalse => exact absurd h (by simp)
  case isTrue hntx =>
    split at h
    case h_1 => exact absurd h (by simp)
    case h_2 c heq =>
      split at h
      case isFalse => exact absurd h (by simp)
      case isTrue hcw =>
        split at h
        case isTrue => exact absurd h (by simp)
        case isFalse hne0 =>
          split at h
          case h_1 => exact absurd h (by simp)
          case h_2 d heqd =>
            split at h
            case isTrue => exact absurd h (by simp)
            case isFalse hds =>
              injection h with h1 h2
              subst h1
              have hnpxlt : s.nextPx < pattern.length := lt_length_of_getElem? _ _ _ heq
              have hcg : pattern.getD s.nextPx 0 = c := getD_of_getElem? _ _ _ heq
              have hlow2 : lowSt pattern { s with px := s.nextPx, tx := s.nextTx } := by
                refine ⟨hnpxlt, ?_, rfl⟩
                rw [hcg]
                exact hcw
              constructor
              · constructor
                case px_le => exact Nat.le_of_lt hnpxlt
                case tx_le => exact hntx
                case ntx_le => show s.nextTx ≤ s.nextTx + 1; omega
                case npx_le => exact Nat.le_refl _
                case npx_lt => exact fun _ => hnpxlt
                case vx_tx => exact hinv.vx_ntx
                case vx_ntx => exact hinv.vx_ntx
                case hnx =>
                  rcases hinv.hnpx with h0 | hd
                  · exact Or.inl h0
                  · rcases hinv.hnx with h0 | ⟨hk1, hk2, _⟩
                    · exact Or.inl h0
                    · exact Or.inr ⟨hk1, hk2, hd⟩
                case hnpx => exact hinv.hnpx
                case wz => intro h0; exact absurd h0 hne0
              · have b1 := hinv.px_le
                have b2 := hinv.tx_le
                rw [mMeasure_of_low pattern text _ hlow2, mMeasure_of_not_low pattern text s hlow]
                dsimp only
                omega

theorem mMeasure_wild_lt (pattern text : Str) (s s2 : MState)
    (htx2 : s2.tx = s.tx) (hntx2 : s2.nextTx = s.tx + 1)
    (hpx2 : s.px + 1 ≤ s2.px)
    (htxle : s.tx ≤ text.length) (hntxle : s.nextTx ≤ s.tx + 1)
    (hpx : s.px < pattern.length)
    (hw : wildByte (pattern.getD s.px 0)) :
    mMeasure pattern text s2 < mMeasure pattern text s := by
  have hl2 : ¬ lowSt pattern s2 := by
    intro hx
    have h3 := hx.2.2
    rw [htx2, hntx2] at h3
    omega
  rw [mMeasure_of_not_low pattern text s2 hl2]
  by_cases hl : lowSt pattern s
  · have he : s.tx = s.nextTx := hl.2.2
    rw [mMeasure_of_low pattern text s hl]
    have hA : (text.length + 1 - s2.nextTx) + 1 ≤ text.length + 1 - s.nextTx := by
      rw [hntx2]
      omega
    have hprod := Nat.mul_le_mul_right (pattern.length + text.length + 2) hA
    rw [Nat.succ_mul] at hprod
    omega
  · have hne : ¬ s.tx = s.nextTx := fun he => hl ⟨hpx, hw, he⟩
    rw [mMeasure_of_not_low pattern text s hl]
    have hA : text.length + 1 - s2.nextTx ≤ text.length + 1 - s.nextTx := by
      rw [hntx2]
      omega
    have hprod := Nat.mul_le_mul_right (pattern.length + text.length + 2) hA
    omega

theorem mMeasure_adv_lt (pattern text : Str) (s s2 : MState)
    (htx2 : s.tx + 1 ≤ s2.tx) (hpx2 : s2.px = s.px + 1)
    (hntx2 : s2.nextTx = s.nextTx)
    (hpx : s.px < pattern.length)
    (hnw : ¬ wildByte (pattern.getD s.px 0)) :
    mMeasure pattern text s2 < mMeasure pattern text s := by
  have hl : ¬ lowSt pattern s := fun hx => hnw hx.2.1
  rw [mMeasure_of_not_low pattern text s hl]
  have hA : text.length + 1 - s2.nextTx = text.length + 1 - s.nextTx := by rw [hntx2]
  have hprod : (text.length + 1 - s2.nextTx) * (pattern.length + text.length + 2)
      = (text.length + 1 - s.nextTx) * (pattern.length + text.length + 2) := by rw [hA]
  by_cases hl2 : lowSt pattern s2
  · rw [mMeasure_of_low pattern text s2 hl2]
    omega
  · rw [mMeasure_of_not_low pattern text s2 hl2]
    omega

theorem matchWildcard_cont_inv (pattern text : Str) (s s2 : MState)
    (cap : Option (Str × Str)) (hinv : MInv pattern text s)
    (hpx : s.px < pattern.length)
    (hwild : wildByte (pattern.getD s.px 0))
    (h : matchWildcard pattern s (pattern.getD s.px 0) = .cont s2 cap) :
    MInv pattern text s2 ∧ mMeasure pattern text s2 < mMeasure pattern text s := by
  unfold matchWildcard at h
  dsimp only at h
  split at h
  case isTrue hbr =>
    split at h
    case isTrue hparse =>
      split at h
      case h_1 => exact absurd h (by simp)
      case h_2 i hidx =>
        injection h with h1 h2
        subst h1
        have hilt : i < (pattern.drop (s.px + 1)).length := indexByte_lt_length _ _ _ hidx
        rw [List.length_drop] at hilt
        have hkl : ((pattern.drop (s.px + 1)).take i).length = i := by
          rw [List.length_take, List.length_drop]
          omega
        constructor
        · constructor
          case px_le =>
            show s.px + 1 + ((pattern.drop (s.px + 1)).take i).length + 1 ≤ pattern.length
            rw [hkl]
            omega
          case tx_le => exact hinv.tx_le
          case ntx_le => show s.tx + 1 ≤ s.tx + 1; omega
          case npx_le =>
            show s.px ≤ s.px + 1 + ((pattern.drop (s.px + 1)).take i).length + 1
            omega
          case npx_lt => exact fun _ => hpx
          case vx_tx => show s.tx ≤ s.tx; omega
          case vx_ntx => show s.tx ≤ s.tx + 1; omega
          case hnx =>
            refine Or.inr ⟨?_, ?_, Or.inr ?_⟩
            · show ((pattern.drop (s.px + 1)).take i).length + 1 ≤ s.px + 1 + i
              rw [hkl]
              omega
            · show s.px + 1 + i < pattern.length
              omega
            · show s.px + 1 + i + 1 ≤ s.px + 1 + ((pattern.drop (s.px + 1)).take i).length + 1
              rw [hkl]
          case hnpx =>
            refine Or.inr (Or.inl ⟨?_, hbr⟩)
            show s.px + 1 = s.px + 1 + i - ((pattern.drop (s.px + 1)).take i).length
            rw [hkl]
            omega
          case wz => intro h0; exact absurd h0 (by simp)
        · refine mMeasure_wild_lt pattern text s _ rfl rfl ?_ hinv.tx_le hinv.ntx_le hpx hwild
          show s.px + 1 ≤ s.px + 1 + ((pattern.drop (s.px + 1)).take i).length + 1
          omega
    case isFalse hparse =>
      injection h with h1 h2
      subst h1
      have hskip : s.px + 1 ≤ s.nx := by omega
      rcases hinv.hnx with h0 | ⟨hk1, hk2, hd⟩
      · omega
      · rcases hd with ⟨he, _⟩ | hge
        · constructor
          · constructor
            case px_le =>
              show s.px + 1 + s.key.length + 1 ≤ pattern.length
              omega
            case tx_le => exact hinv.tx_le
            case ntx_le => show s.tx + 1 ≤ s.tx + 1; omega
            case npx_le => show s.px ≤ s.px + 1 + s.key.length + 1; omega
            case npx_lt => exact fun _ => hpx
            case vx_tx => exact hinv.vx_tx
            case vx_ntx =>
              have := hinv.vx_tx
              show s.vx ≤ s.tx + 1
              omega
            case hnx =>
              refine Or.inr ⟨hk1, hk2, Or.inr ?_⟩
              show s.nx + 1 ≤ s.px + 1 + s.key.length + 1
              omega
            case hnpx => exact Or.inr (Or.inl ⟨he, hbr⟩)
            case wz => intro h0; exact absurd h0 (by simp)
          · refine mMeasure_wild_lt pattern text s _ rfl rfl ?_ hinv.tx_le hinv.ntx_le hpx hwild
            show s.px + 1 ≤ s.px + 1 + s.key.length + 1
            omega
        · omega
  case isFalse hbr =>
    have hstar : pattern.getD s.px 0 = cStar := by
      rcases hwild with h1 | h1
      · exact h1
      · exact absurd h1 hbr
    injection h with h1 h2
    subst h1
    constructor
    · constructor
      case px_le => exact hpx
      case tx_le => exact hinv.tx_le
      case ntx_le => show s.tx + 1 ≤ s.tx + 1; omega
      case npx_le => show s.px ≤ s.px + 1; omega
      case npx_lt => exact fun _ => hpx
      case vx_tx => exact hinv.vx_tx
      case vx_ntx =>
        have := hinv.vx_tx
        show s.vx ≤ s.tx + 1
        omega
      case hnx =>
        rcases hinv.hnx with h0 | ⟨hk1, hk2, hd⟩
        · exact Or.inl h0
        · refine Or.inr ⟨hk1, hk2, Or.inr ?_⟩
          rcases hd with ⟨_, hb⟩ | hge
          · rw [hstar] at hb
            exact absurd hb (by unfold cStar cLBrace; omega)
          · show s.nx + 1 ≤ s.px + 1
            omega
      case hnpx =>
        rcases hinv.hnx with h0 | ⟨hk1, hk2, hd⟩
        · exact Or.inl h0
        · refine Or.inr (Or.inr ?_)
          rcases hd with ⟨_, hb⟩ | hge
          · rw [hstar] at hb
            exact absurd hb (by unfold cStar cLBrace; omega)
          · exact hge
      case wz => intro h0; exact absurd h0 (by simp)
    · refine mMeasure_wild_lt pattern text s _ rfl rfl ?_ hinv.tx_le hinv.ntx_le hpx hwild
      show s.px + 1 ≤ s.px + 1
      omega

theorem adv_inv (pattern text : Str) (s : MState) (n : Nat)
    (hinv : MInv pattern text s) (hpx : s.px < pattern.length)
    (hnw : ¬ wildByte (pattern.getD s.px 0))
    (hn : 1 ≤ n) (htxn : s.tx + n ≤ text.length) :
    MInv pattern text { s with px := s.px + 1, tx := s.tx + n } := by
  constructor
  case px_le => show s.px + 1 ≤ pattern.length; omega
  case tx_le => exact htxn
  case ntx_le =>
    have := hinv.ntx_le
    show s.nextTx ≤ s.tx + n + 1
    omega
  case npx_le =>
    have := hinv.npx_le
    show s.nextPx ≤ s.px + 1
    omega
  case npx_lt => exact hinv.npx_lt
  case vx_tx =>
    have := hinv.vx_tx
    show s.vx ≤ s.tx + n
    omega
  case vx_ntx => exact hinv.vx_ntx
  case hnx =>
    rcases hinv.hnx with h0 | ⟨hk1, hk2, hd⟩
    · exact Or.inl h0
    · refine Or.inr ⟨hk1, hk2, Or.inr ?_⟩
      rcases hd with ⟨_, hb⟩ | hge
      · exact absurd (Or.inr hb) hnw
      · show s.nx + 1 ≤ s.px + 1
        omega
  case hnpx => exact hinv.hnpx
  case wz =>
    intro h0
    obtain ⟨e1, e2⟩ := hinv.wz h0
    refine ⟨e1, Or.inr ?_⟩
    rcases e2 with e2 | e2
    · have h4 : pattern.getD 0 0 = pattern.getD s.px 0 := by rw [e2]
      rw [h4]
      exact hnw
    · exact e2

theorem matchLiteralAdvance_cont_inv (pattern text : Str) (s s2 : MState)
    (cap : Option (Str × Str)) (hinv : MInv pattern text s)
    (hpx : s.px < pattern.length)
    (hnw : ¬ wildByte (pattern.getD s.px 0))
    (htx : s.tx < text.length)
    (h : matchLiteralAdvance pattern text s = .cont s2 cap) :
    MInv pattern text s2 ∧ mMeasure pattern text s2 < mMeasure pattern text s := by
  have hs2 : s2 = { s with px := s.px + 1, tx := s.tx + 1 } := by
    unfold matchLiteralAdvance at h
    split at h
    · split at h
      case h_1 => exact absurd h (by simp)
      case h_2 d heqd =>
        split at h
        · split at h
          · injection h with h1 h2
            exact h1.symm
          · exact absurd h (by simp)
        · injection h with h1 h2
          exact h1.symm
    · injection h with h1 h2
      exact h1.symm
  subst hs2
  constructor
  · exact adv_inv pattern text s 1 hinv hpx hnw (Nat.le_refl 1) (by omega)
  · exact mMeasure_adv_lt pattern text s _ (by show s.tx + 1 ≤ s.tx + 1; omega)
      rfl rfl hpx hnw

theorem matchStep_cont_inv (pattern text : Str) (s s2 : MState)
    (cap : Option (Str × Str)) (hinv : MInv pattern text s)
    (h : matchStep pattern text s = .cont s2 cap) :
    MInv pattern text s2 ∧ mMeasure pattern text s2 < mMeasure pattern text s := by
  unfold matchStep at h
  split at h
  case isFalse hpx =>
    exact matchBacktrack_cont_inv pattern text s s2 cap hinv (fun hx => hpx hx.1) h
  case isTrue hpx =>
    split at h
    case isTrue hq =>
      split at h
      case isTrue hqa =>
        injection h with h1 h2
        subst h1
        have hnw : ¬ wildByte (pattern.getD s.px 0) := by
          rw [hq]
          unfold wildByte cQmark cStar cLBrace
          omega
        have hdrop : (text.drop s.tx).length = text.length - s.tx := List.length_drop _ _
        have hne : text.drop s.tx ≠ [] := by
          apply List.ne_nil_of_length_pos
          omega
        have hn1 := utf8DecodeSize_pos (text.drop s.tx) hne
        have hn2 := utf8DecodeSize_le (text.drop s.tx)
        constructor
        · exact adv_inv pattern text s _ hinv hpx hnw hn1 (by omega)
        · exact mMeasure_adv_lt pattern text s _
            (by show s.tx + 1 ≤ s.tx + utf8DecodeSize (text.drop s.tx); omega)
            rfl rfl hpx hnw
      case isFalse hqa =>
        refine matchBacktrack_cont_inv pattern text s s2 cap hinv ?_ h
        intro hx
        have h1 := hx.2.1
        rw [hq] at h1
        rcases h1 with h1 | h1 <;> simp [cQmark, cStar, cLBrace] at h1
    case isFalse hq =>
      split at h
      case isTrue hw =>
        exact matchWildcard_cont_inv pattern text s s2 cap hinv hpx hw h
      case isFalse hw =>
        split at h
        case isTrue hlit =>
          exact matchLiteralAdvance_cont_inv pattern text s s2 cap hinv hpx hw hlit.1 h
        case isFalse hlit =>
          exact matchBacktrack_cont_inv pattern text s s2 cap hinv (fun hx => hw hx.2.1) h

theorem matchRun_ne_timeout (pattern text : Str) (fuel : Nat) :
    ∀ (s : MState) (vars : Vars), MInv pattern text s →
      mMeasure pattern text s < fuel →
      matchRun pattern text fuel s vars ≠ .timeout := by
  induction fuel with
  | zero => intro s vars _ hm; exact absurd hm (by omega)
  | succ n ih =>
    intro s vars hinv hm
    unfold matchRun
    split
    · rcases hstep : matchStep pattern text s with ⟨s2, cap⟩ | _ | _
      · simp only [hstep]
        obtain ⟨hinv2, hlt⟩ := matchStep_cont_inv pattern text s s2 cap hinv hstep
        exact ih s2 (applyCapture vars cap) hinv2 (by omega)
      · simp only [hstep]
        simp
      · simp only [hstep]
        simp
    · rcases hfin : matchFinal pattern text s with cap | _
      · simp only [hfin]
        simp
      · simp only [hfin]
        simp

theorem getElem?_eq_some_getD (l : Str) (i : Nat) (h : i < l.length) :
    l[i]? = some (l.getD i 0) := by
  rw [List.getElem?_eq_getElem h, List.getD_eq_getElem?_getD, List.getElem?_eq_getElem h]
  rfl

theorem mem_of_getElem?_eq (l : Str) (i a : Nat) (h : l[i]? = some a) : a ∈ l := by
  obtain ⟨hk, he⟩ := List.getElem?_eq_some.mp h
  rw [← he]
  exact List.getElem_mem hk

/-- Well-formed pattern: every opening brace has a closing brace after it. -/
def WfPattern (pattern : Str) : Prop :=
  ∀ i, i < pattern.length → pattern.getD i 0 = cLBrace →
    ∃ j, j < pattern.length ∧ i < j ∧ pattern.getD j 0 = cRBrace

instance (pattern : Str) : Decidable (WfPattern pattern) := by
  unfold WfPattern
  infer_instance

theorem rbrace_mem_drop (pattern : Str) (i j : Nat) (hij : i ≤ j)
    (hj : j < pattern.length) (hb : pattern.getD j 0 = cRBrace) :
    cRBrace ∈ pattern.drop i := by
  have h1 : (pattern.drop i)[j - i]? = pattern[j]? := by
    rw [List.getElem?_drop]
    have h2 : i + (j - i) = j := by omega
    rw [h2]
  rw [getElem?_eq_some_getD pattern j hj, hb] at h1
  exact mem_of_getElem?_eq _ _ _ h1

theorem matchBacktrack_ne_fault (pattern text : Str) (s : MState)
    (hinv : MInv pattern text s) (hP : 0 < pattern.length)
    (hq : s.nextTx = 0 → ¬ wildByte (pattern.getD 0 0)) :
    matchBacktrack pattern text s ≠ .fault := by
  unfold matchBacktrack
  split
  case isFalse => simp
  case isTrue hle =>
    have hlt : s.nextPx < pattern.length := hinv.npx_lt hP
    rw [getElem?_eq_some_getD pattern s.nextPx hlt]
    simp only []
    split
    case isFalse => simp
    case isTrue hcw =>
      split
      case isTrue h0 =>
        exfalso
        obtain ⟨e1, _⟩ := hinv.wz h0
        rw [e1] at hcw
        exact hq h0 hcw
      case isFalse h0 =>
        have hlt2 : s.nextTx - 1 < text.length := by omega
        rw [getElem?_eq_some_getD text _ hlt2]
        simp only []
        split <;> simp

theorem matchWildcard_ne_fault (pattern : Str) (s : MState)
    (hwf : WfPattern pattern) (hpx : s.px < pattern.length) :
    matchWildcard pattern s (pattern.getD s.px 0) ≠ .fault := by
  unfold matchWildcard
  dsimp only
  split
  case isFalse => simp
  case isTrue hbr =>
    split
    case isFalse => simp
    case isTrue hparse =>
      obtain ⟨j, hjl, hij, hjb⟩ := hwf s.px hpx hbr
      have hmem : cRBrace ∈ pattern.drop (s.px + 1) :=
        rbrace_mem_drop pattern (s.px + 1) j (by omega) hjl hjb
      obtain ⟨i, hi⟩ := indexByte_isSome_of_mem _ _ hmem
      rw [hi]
      simp

theorem matchLiteralAdvance_ne_fault (pattern text : Str) (s : MState)
    (hinv : MInv pattern text s) (hpx : s.px < pattern.length) :
    matchLiteralAdvance pattern text s ≠ .fault := by
  unfold matchLiteralAdvance
  split
  case isFalse => simp
  case isTrue h0 =>
    have hlt : s.px - 1 < pattern.length := by omega
    rw [getElem?_eq_some_getD pattern _ hlt]
    simp only []
    split
    · split
      case isTrue => simp
      case isFalse hg =>
        exfalso
        exact hg ⟨hinv.vx_tx, hinv.tx_le⟩
    · simp

theorem matchFinal_ne_finFault (pattern text : Str) (s : MState)
    (hinv : MInv pattern text s) :
    matchFinal pattern text s ≠ .finFault := by
  unfold matchFinal
  split
  case isFalse => simp
  case isTrue h0 =>
    have hlt : s.px - 1 < pattern.length := by
      have := hinv.px_le
      omega
    rw [getElem?_eq_some_getD pattern _ hlt]
    simp only []
    split
    · split
      case isTrue => simp
      case isFalse hg =>
        exfalso
        exact hg ⟨hinv.vx_tx, hinv.tx_le⟩
    · simp

theorem matchStep_ne_fault (pattern text : Str) (s : MState)
    (hinv : MInv pattern text s) (hwf : WfPattern pattern)
    (hP : 0 < pattern.length) :
    matchStep pattern text s ≠ .fault := by
  unfold matchStep
  split
  case isFalse hpx =>
    refine matchBacktrack_ne_fault pattern text s hinv hP ?_
    intro h0
    obtain ⟨e1, e2⟩ := hinv.wz h0
    rcases e2 with e2 | e2
    · exfalso
      rw [e2] at hpx
      exact hpx hP
    · exact e2
  case isTrue hpx =>
    split
    case isTrue hq =>
      split
      case isTrue => simp
      case isFalse =>
        refine matchBacktrack_ne_fault pattern text s hinv hP ?_
        intro h0
        obtain ⟨e1, e2⟩ := hinv.wz h0
        rcases e2 with e2 | e2
        · intro hx
          have h4 : pattern.getD 0 0 = pattern.getD s.px 0 := by rw [e2]
          rw [h4, hq] at hx
          rcases hx with h1 | h1 <;> simp [cQmark, cStar, cLBrace] at h1
        · exact e2
    case isFalse hq =>
      split
      case isTrue hw => exact matchWildcard_ne_fault pattern s hwf hpx
      case isFalse hw =>
        split
        case isTrue hlit => exact matchLiteralAdvance_ne_fault pattern text s hinv hpx
        case isFalse =>
          refine matchBacktrack_ne_fault pattern text s hinv hP ?_
          intro h0
          obtain ⟨e1, e2⟩ := hinv.wz h0
          rcases e2 with e2 | e2
          · intro hx
            have h4 : pattern.getD 0 0 = pattern.getD s.px 0 := by rw [e2]
            rw [h4] at hx
            exact hw hx
          · exact e2

theorem matchRun_ok (pattern text : Str) (hwf : WfPattern pattern)
    (hP : 0 < pattern.length) (fuel : Nat) :
    ∀ (s : MState) (vars : Vars), MInv pattern text s →
      mMeasure pattern text s < fuel →
      ∃ (b : Bool) (v2 : Vars), matchRun pattern text fuel s vars = .ok b v2 := by
  induction fuel with
  | zero => intro s vars _ hm; exact absurd hm (by omega)
  | succ n ih =>
    intro s vars hinv hm
    unfold matchRun
    split
    · rcases hstep : matchStep pattern text s with ⟨s2, cap⟩ | _ | _
      · simp only [hstep]
        obtain ⟨hinv2, hlt⟩ := matchStep_cont_inv pattern text s s2 cap hinv hstep
        exact ih s2 (applyCapture vars cap) hinv2 (by omega)
      · simp only [hstep]
        exact ⟨false, [], rfl⟩
      · exact absurd hstep (matchStep_ne_fault pattern text s hinv hwf hP)
    · rcases hfin : matchFinal pattern text s with cap | _
      · simp only [hfin]
        exact ⟨true, applyCapture vars cap, rfl⟩
      · exact absurd hfin (matchFinal_ne_finFault pattern text s hinv)

theorem matchRun_false_nil (pattern text : Str) (fuel : Nat) :
    ∀ (s : MState) (vars v2 : Vars),
      matchRun pattern text fuel s vars = .ok false v2 → v2 = [] := by
  induction fuel with
  | zero => intro s vars v2 h; exact absurd h (by simp [matchRun])
  | succ n ih =>
    intro s vars v2 h
    unfold matchRun at h
    split at h
    · rcases hstep : matchStep pattern text s with ⟨s2, cap⟩ | _ | _ <;>
        simp only [hstep] at h
      · exact ih s2 (applyCapture vars cap) v2 h
      · exact (MRes.ok.injEq _ _ _ _).mp h |>.2.symm
      · exact absurd h (by simp)
    · rcases hfin : matchFinal pattern text s with cap | _ <;> simp only [hfin] at h
      · exact absurd ((MRes.ok.injEq _ _ _ _).mp h).1 (by simp)
      · exact absurd h (by simp)

/-- The keys of the capture list, in order. -/
def varsKeys (vars : Vars) : List Str := vars.map Prod.fst

theorem varsKeys_set (vars : Vars) (k v : Str) :
    varsKeys (Vars.set vars k v) =
      if k ∈ varsKeys vars then varsKeys vars else varsKeys vars ++ [k] := by
  induction vars with
  | nil => simp [Vars.set, varsKeys]
  | cons p rest ih =>
    have hcons : varsKeys (p :: rest) = p.1 :: varsKeys rest := rfl
    unfold Vars.set
    by_cases he : p.1 = k
    · rw [if_pos he, hcons, he]
      rw [if_pos (List.mem_cons_self k (varsKeys rest))]
      rfl
    · rw [if_neg he, hcons]
      have hk : varsKeys (p :: Vars.set rest k v) = p.1 :: varsKeys (Vars.set rest k v) := rfl
      rw [hk, ih]
      have hne : ¬ k = p.1 := fun hx => he hx.symm
      by_cases hm : k ∈ varsKeys rest
      · rw [if_pos hm, if_pos (List.mem_cons_of_mem p.1 hm)]
      · rw [if_neg hm, if_neg ?_]
        · rfl
        · intro hx
          rcases List.mem_cons.mp hx with h1 | h1
          · exact hne h1
          · exact hm h1

theorem nodup_varsKeys_set (vars : Vars) (k v : Str)
    (h : (varsKeys vars).Nodup) : (varsKeys (Vars.set vars k v)).Nodup := by
  rw [varsKeys_set]
  split
  · exact h
  case isFalse hm =>
    rw [List.nodup_append]
    exact ⟨h, List.nodup_singleton k, by simp [hm]⟩

theorem nodup_varsKeys_applyCapture (vars : Vars) (cap : Option (Str × Str))
    (h : (varsKeys vars).Nodup) : (varsKeys (applyCapture vars cap)).Nodup := by
  cases cap with
  | none => exact h
  | some kv => exact nodup_varsKeys_set vars kv.1 kv.2 h

theorem matchRun_nodup (pattern text : Str) (fuel : Nat) :
    ∀ (s : MState) (vars : Vars) (b : Bool) (v2 : Vars),
      (varsKeys vars).Nodup →
      matchRun pattern text fuel s vars = .ok b v2 → (varsKeys v2).Nodup := by
  induction fuel with
  | zero => intro s vars b v2 _ h; exact absurd h (by simp [matchRun])
  | succ n ih =>
    intro s vars b v2 hnd h
    unfold matchRun at h
    split at h
    · rcases hstep : matchStep pattern text s with ⟨s2, cap⟩ | _ | _ <;>
        simp only [hstep] at h
      · exact ih s2 (applyCapture vars cap) b v2
          (nodup_varsKeys_applyCapture vars cap hnd) h
      · rw [← ((MRes.ok.injEq _ _ _ _).mp h).2]
        simp [varsKeys]
      · exact absurd h (by simp)
    · rcases hfin : matchFinal pattern text s with cap | _ <;> simp only [hfin] at h
      · rw [← ((MRes.ok.injEq _ _ _ _).mp h).2]
        exact nodup_varsKeys_applyCapture vars cap hnd
      · exact absurd h (by simp)

/-- The observable outcome of a run with the capture list erased. -/
inductive MKind where
  | kOk (b : Bool)
  | kFault
  | kTimeout
deriving DecidableEq, Repr

/-- Erase the capture list from a result. -/
def resKind : MRes → MKind
  | .ok b _ => .kOk b
  | .fault => .kFault
  | .timeout => .kTimeout

theorem matchRun_kind_const (pattern text : Str) (fuel : Nat) :
    ∀ (s : MState) (v1 v2 : Vars),
      resKind (matchRun pattern text fuel s v1)
        = resKind (matchRun pattern text fuel s v2) := by
  induction fuel with
  | zero => intro s v1 v2; rfl
  | succ n ih =>
    intro s v1 v2
    unfold matchRun
    split
    · rcases hstep : matchStep pattern text s with ⟨s2, cap⟩ | _ | _ <;>
        (simp only [hstep]; try rfl)
      exact ih s2 (applyCapture v1 cap) (applyCapture v2 cap)
    · rcases hfin : matchFinal pattern text s with cap | _ <;> (simp only [hfin]; try rfl)

theorem matchFuel_gt (pattern text : Str) :
    mMeasure pattern text initState < matchFuel pattern text := by
  unfold matchFuel
  omega

/-- The single-star pattern. -/
def patStar : Str := [cStar]

/-- The single named-capture pattern with name byte 49 (digit one). -/
def patBr : Str := [cLBrace, 49, cRBrace]

/-- Loop state while matching the star pattern, after the star term was
processed with the text cursor at k. -/
def sStar (k : Nat) : MState := ⟨[], 0, 0, 1, k, 0, k + 1⟩

/-- Loop state right after a backtrack resume onto the star. -/
def sStarB (k : Nat) : MState := ⟨[], 0, 0, 0, k, 0, k⟩

/-- Loop state while matching the named-capture pattern, after the opener
was processed with the text cursor at k. -/
def sBr (k : Nat) : MState := ⟨[49], 2, 0, 3, k, 0, k + 1⟩

/-- Loop state right after a backtrack resume onto the opener. -/
def sBrB (k : Nat) : MState := ⟨[49], 2, 0, 0, k, 0, k⟩

theorem star_stepA (t : Str) (k : Nat) (hk : k < t.length) :
    matchStep patStar t (sStar k) =
      (if t.getD k 0 = cSlash then .retFalse else .cont (sStarB (k + 1)) none) := by
  have h2 : t[k + 1 - 1]? = some (t.getD k 0) := by
    simp only [Nat.add_sub_cancel]
    exact getElem?_eq_some_getD t k hk
  have h3 : k + 1 ≤ t.length := by omega
  unfold matchStep matchBacktrack
  simp only [sStar, sStarB, patStar]
  simp only [List.length_cons, List.length_nil, List.getElem?_cons_zero]
  rw [h2]
  simp [wildByte, cStar, cLBrace, cQmark, h3]

theorem star_stepB (t : Str) (k : Nat) :
    matchStep patStar t (sStarB k) = .cont (sStar k) none := by
  unfold matchStep matchWildcard
  simp only [sStar, sStarB, patStar]
  simp [wildByte, cStar, cLBrace, cQmark]

theorem star_final (t : Str) (k : Nat) :
    matchFinal patStar t (sStar k) = .finOk none := by
  unfold matchFinal
  simp only [sStar, patStar]
  simp [cStar, cRBrace]

theorem star_run (t : Str) : ∀ (n k fuel : Nat) (vars : Vars),
    k + n = t.length → 2 * n + 2 ≤ fuel →
    matchRun patStar t fuel (sStar k) vars =
      (if cSlash ∈ t.drop k then MRes.ok false [] else MRes.ok true vars) := by
  intro n
  induction n with
  | zero =>
    intro k fuel vars hk hf
    obtain ⟨f, rfl⟩ : ∃ f, fuel = f + 1 := ⟨fuel - 1, by omega⟩
    have hkl : k = t.length := by omega
    subst hkl
    rw [List.drop_length]
    rw [if_neg (by simp)]
    unfold matchRun
    rw [if_neg (by simp [sStar, patStar])]
    rw [star_final]
    rfl
  | succ n ih =>
    intro k fuel vars hk hf
    obtain ⟨f, rfl⟩ : ∃ f, fuel = f + 1 := ⟨fuel - 1, by omega⟩
    have hklt : k < t.length := by omega
    have hdk : t.drop k = t.getD k 0 :: t.drop (k + 1) := by
      rw [List.getD_eq_getElem t 0 hklt]
      exact List.drop_eq_getElem_cons hklt
    unfold matchRun
    rw [if_pos (by simp [sStar, patStar]; omega)]
    rw [star_stepA t k hklt]
    by_cases hsl : t.getD k 0 = cSlash
    · rw [if_pos hsl]
      simp only []
      rw [if_pos (by rw [hdk, hsl]; exact List.mem_cons_self _ _)]
    · rw [if_neg hsl]
      simp only []
      obtain ⟨f2, rfl⟩ : ∃ f2, f = f2 + 1 := ⟨f - 1, by omega⟩
      unfold matchRun
      rw [if_pos (by simp [sStarB, patStar])]
      rw [star_stepB]
      simp only [applyCapture]
      rw [ih (k + 1) f2 vars (by omega) (by omega)]
      have hmem : (cSlash ∈ t.drop k) ↔ (cSlash ∈ t.drop (k + 1)) := by
        rw [hdk, List.mem_cons]
        constructor
        · intro hx
          rcases hx with hx | hx
          · exact absurd hx.symm hsl
          · exact hx
        · exact Or.inr
      simp only [hmem]

theorem br_stepA (t : Str) (k : Nat) (hk : k < t.length) :
    matchStep patBr t (sBr k) =
      (if t.getD k 0 = cSlash then .retFalse else .cont (sBrB (k + 1)) none) := by
  have h2 : t[k + 1 - 1]? = some (t.getD k 0) := by
    simp only [Nat.add_sub_cancel]
    exact getElem?_eq_some_getD t k hk
  have h3 : k + 1 ≤ t.length := by omega
  unfold matchStep matchBacktrack
  simp only [sBr, sBrB, patBr]
  simp only [List.length_cons, List.length_nil, List.getElem?_cons_zero]
  rw [h2]
  simp [wildByte, cStar, cLBrace, cQmark, h3]

theorem br_stepB (t : Str) (k : Nat) :
    matchStep patBr t (sBrB k) = .cont (sBr k) none := by
  unfold matchStep matchWildcard
  simp only [sBr, sBrB, patBr]
  simp [wildByte, cStar, cLBrace, cQmark]

theorem br_final (t : Str) (k : Nat) (hk : k ≤ t.length) :
    matchFinal patBr t (sBr k) = .finOk (some ([49], strSlice t 0 k)) := by
  unfold matchFinal
  simp only [sBr, patBr]
  simp [cRBrace, hk]

theorem strSlice_all (t : Str) : strSlice t 0 t.length = t := by
  unfold strSlice
  rw [List.drop_zero, List.take_length]

theorem br_run (t : Str) : ∀ (n k fuel : Nat) (vars : Vars),
    k + n = t.length → 2 * n + 2 ≤ fuel →
    matchRun patBr t fuel (sBr k) vars =
      (if cSlash ∈ t.drop k then MRes.ok false []
        else MRes.ok true (Vars.set vars [49] t)) := by
  intro n
  induction n with
  | zero =>
    intro k fuel vars hk hf
    obtain ⟨f, rfl⟩ : ∃ f, fuel = f + 1 := ⟨fuel - 1, by omega⟩
    have hkl : k = t.length := by omega
    subst hkl
    rw [List.drop_length]
    rw [if_neg (by simp)]
    unfold matchRun
    rw [if_neg (by simp [sBr, patBr])]
    rw [br_final t t.length (Nat.le_refl _)]
    simp only [applyCapture]
    rw [strSlice_all]
  | succ n ih =>
    intro k fuel vars hk hf
    obtain ⟨f, rfl⟩ : ∃ f, fuel = f + 1 := ⟨fuel - 1, by omega⟩
    have hklt : k < t.length := by omega
    have hdk : t.drop k = t.getD k 0 :: t.drop (k + 1) := by
      rw [List.getD_eq_getElem t 0 hklt]
      exact List.drop_eq_getElem_cons hklt
    unfold matchRun
    rw [if_pos (by simp [sBr, patBr]; omega)]
    rw [br_stepA t k hklt]
    by_cases hsl : t.getD k 0 = cSlash
    · rw [if_pos hsl]
      simp only []
      rw [if_pos (by rw [hdk, hsl]; exact List.mem_cons_self _ _)]
    · rw [if_neg hsl]
      simp only []
      obtain ⟨f2, rfl⟩ : ∃ f2, f = f2 + 1 := ⟨f - 1, by omega⟩
      unfold matchRun
      rw [if_pos (by simp [sBrB, patBr])]
      rw [br_stepB]
      simp only [applyCapture]
      rw [ih (k + 1) f2 vars (by omega) (by omega)]
      have hmem : (cSlash ∈ t.drop k) ↔ (cSlash ∈ t.drop (k + 1)) := by
        rw [hdk, List.mem_cons]
        constructor
        · intro hx
          rcases hx with hx | hx
          · exact absurd hx.symm hsl
          · exact hx
        · exact Or.inr
      simp only [hmem]

theorem match_star (t : Str) (vars : Vars) :
    Match patStar t vars =
      (if cSlash ∈ t then MRes.ok false [] else MRes.ok true vars) := by
  have hl : lowSt patStar initState :=
    ⟨by simp [patStar, initState], by simp [patStar, initState, wildByte, cStar], by
      simp [initState]⟩
  have hfuel : 2 * t.length + 3 ≤ matchFuel patStar t := by
    unfold matchFuel
    rw [mMeasure_of_low patStar t initState hl]
    have hm := Nat.mul_le_mul_right (patStar.length + t.length + 2)
      (show 1 ≤ t.length + 1 - initState.nextTx by simp [initState])
    rw [one_mul] at hm
    simp only [initState, patStar, List.length_cons, List.length_nil] at hm ⊢
    omega
  unfold Match
  obtain ⟨f, hf⟩ : ∃ f, matchFuel patStar t = f + 1 := ⟨matchFuel patStar t - 1, by omega⟩
  rw [hf]
  have hstep0 : matchStep patStar t initState = .cont (sStar 0) none := by
    unfold matchStep matchWildcard
    simp only [initState, patStar]
    simp [wildByte, cStar, cLBrace, cQmark]
    rfl
  unfold matchRun
  rw [if_pos (by simp [initState, patStar])]
  rw [hstep0]
  simp only [applyCapture]
  rw [star_run t t.length 0 f vars (by omega) (by omega)]
  rw [List.drop_zero]

theorem match_brace (t : Str) (vars : Vars) :
    Match patBr t vars =
      (if cSlash ∈ t then MRes.ok false []
        else MRes.ok true (Vars.set vars [49] t)) := by
  have hl : lowSt patBr initState :=
    ⟨by simp [patBr, initState], by simp [patBr, initState, wildByte, cLBrace], by
      simp [initState]⟩
  have hfuel : 2 * t.length + 3 ≤ matchFuel patBr t := by
    unfold matchFuel
    rw [mMeasure_of_low patBr t initState hl]
    have hm := Nat.mul_le_mul_right (patBr.length + t.length + 2)
      (show 1 ≤ t.length + 1 - initState.nextTx by simp [initState])
    rw [one_mul] at hm
    simp only [initState, patBr, List.length_cons, List.length_nil] at hm ⊢
    omega
  unfold Match
  obtain ⟨f, hf⟩ : ∃ f, matchFuel patBr t = f + 1 := ⟨matchFuel patBr t - 1, by omega⟩
  rw [hf]
  have hstep0 : matchStep patBr t initState = .cont (sBr 0) none := by
    unfold matchStep matchWildcard
    simp only [initState, patBr]
    simp [wildByte, cStar, cLBrace, cQmark, indexByte, cRBrace, sBr]
  unfold matchRun
  rw [if_pos (by simp [initState, patBr])]
  rw [hstep0]
  simp only [applyCapture]
  rw [br_run t t.length 0 f vars (by omega) (by omega)]
  rw [List.drop_zero]

/-- ASCII fragment of Go strings.ToUpper, byte by byte (HTTP method names
are ASCII, where both agree). -/
def goToUpper (s : Str) : Str :=
  s.map (fun b => if 97 ≤ b ∧ b ≤ 122 then b - 32 else b)

/-- Go map indexing on an association list holding the map entries. -/
def mapLookup {α : Type} (route : List (Str × α)) (k : Str) : Option α :=
  match route with
  | [] => none
  | p :: rest => if p.1 = k then some p.2 else mapLookup rest k

/-- Go string comparison, less or equal: bytewise lexicographic, as used by
sort.Strings. -/
def strLe : Str → Str → Bool
  | [], _ => true
  | _ :: _, [] => false
  | a :: as2, b :: bs => if a < b then true else if b < a then false else strLe as2 bs

theorem strLe_total : ∀ (a b : Str), strLe a b = true ∨ strLe b a = true := by
  intro a
  induction a with
  | nil => intro b; exact Or.inl rfl
  | cons x xs ih =>
    intro b
    cases b with
    | nil => exact Or.inr rfl
    | cons y ys =>
      unfold strLe
      rcases Nat.lt_trichotomy x y with h | h | h
      · left
        rw [if_pos h]
      · subst h
        rw [if_neg (by omega), if_neg (by omega), if_neg (by omega), if_neg (by omega)]
        exact ih ys
      · right
        rw [if_pos h]

theorem strLe_trans : ∀ (a b c : Str),
    strLe a b = true → strLe b c = true → strLe a c = true := by
  intro a
  induction a with
  | nil => intro b c _ _; rfl
  | cons x xs ih =>
    intro b c hab hbc
    cases b with
    | nil => exact absurd hab (by simp [strLe])
    | cons y ys =>
      cases c with
      | nil => exact absurd hbc (by simp [strLe])
      | cons z zs =>
        unfold strLe at hab hbc ⊢
        rcases Nat.lt_trichotomy x y with h1 | h1 | h1
        · rcases Nat.lt_trichotomy y z with h2 | h2 | h2
          · rw [if_pos (by omega)]
          · subst h2
            rw [if_pos h1]
          · rw [if_neg (by omega), if_pos h2] at hbc
            exact absurd hbc (by simp)
        · subst h1
          rw [if_neg (by omega), if_neg (by omega)] at hab
          rcases Nat.lt_trichotomy x z with h2 | h2 | h2
          · rw [if_pos h2]
          · subst h2
            rw [if_neg (by omega), if_neg (by omega)] at hbc ⊢
            exact ih ys zs hab hbc
          · rw [if_neg (by omega), if_pos h2] at hbc
            exact absurd hbc (by simp)
        · rw [if_neg (by omega), if_pos h1] at hab
          exact absurd hab (by simp)

instance : IsTotal Str (fun a b => strLe a b = true) := ⟨strLe_total⟩

instance : IsTrans Str (fun a b => strLe a b = true) :=
  ⟨fun a b c => strLe_trans a b c⟩

/-- The byte string OPTIONS. -/
def mOPTIONS : Str := [79, 80, 84, 73, 79, 78, 83]

/-- The Allow list computed by Method.ServeHTTP on a lookup miss
(src/mux.go lines 142 to 149): OPTIONS plus every registered method
normalized to upper case and different from OPTIONS, sorted. -/
def allowList {α : Type} (route : List (Str × α)) : List Str :=
  List.insertionSort (fun a b => strLe a b = true)
    (mOPTIONS ::
      (route.map (fun p => goToUpper p.1)).filter (fun m => decide (m ≠ mOPTIONS)))

/-- Go strings.Join with the separator comma and space. -/
def joinCS : List Str → Str
  | [] => []
  | [s] => s
  | s :: r :: rest => s ++ [44, 32] ++ joinCS (r :: rest)

/-- Observable effect of Method.ServeHTTP on the response: either the
registered handler runs, or the Allow header is set and a 405 status is
written unless the normalized method is OPTIONS. -/
inductive DispatchRes (α : Type) where
  | handled (h : α)
  | notAllowed (allowHeader : Str) (wrote405 : Bool)
deriving DecidableEq

/-- Method.ServeHTTP (src/mux.go lines 135 to 155): normalize the request
method to upper case, dispatch on a hit; on a miss set the Allow header
to the sorted comma-space joined allow list, and write status 405 when
the normalized method is not OPTIONS. -/
def serveHTTP {α : Type} (route : List (Str × α)) (reqMethod : Str) : DispatchRes α :=
  match mapLookup route (goToUpper reqMethod) with
  | some h => .handled h
  | none =>
    .notAllowed (joinCS (allowList route)) (decide (goToUpper reqMethod ≠ mOPTIONS))

theorem allowList_sorted {α : Type} (route : List (Str × α)) :
    List.Sorted (fun a b => strLe a b = true) (allowList route) :=
  List.sorted_insertionSort _ _

theorem allowList_perm {α : Type} (route : List (Str × α)) :
    List.Perm (allowList route)
      (mOPTIONS ::
        (route.map (fun p => goToUpper p.1)).filter (fun m => decide (m ≠ mOPTIONS))) :=
  List.perm_insertionSort _ _

theorem allowList_count {α : Type} (route : List (Str × α)) :
    ((allowList route).filter (fun x => decide (x = mOPTIONS))).length = 1 := by
  have hp := List.Perm.filter (fun x => decide (x = mOPTIONS)) (allowList_perm route)
  rw [List.Perm.length_eq hp]
  rw [List.filter_cons_of_pos (by simp)]
  have h0 : ((route.map (fun p => goToUpper p.1)).filter
      (fun m => decide (m ≠ mOPTIONS))).filter (fun x => decide (x = mOPTIONS)) = [] := by
    rw [List.filter_filter]
    apply List.filter_eq_nil_iff.mpr
    intro a _
    simp
  rw [h0]
  rfl

theorem allowList_mem {α : Type} (route : List (Str × α)) (m : Str) :
    m ∈ allowList route ↔
      (m = mOPTIONS ∨ (m ∈ route.map (fun p => goToUpper p.1) ∧ m ≠ mOPTIONS)) := by
  rw [List.Perm.mem_iff (allowList_perm route), List.mem_cons, List.mem_filter]
  simp

/-- Scanner for the named terms of a pattern: outside a name, an opening
brace starts one; inside a name (accumulated reversed), a closing brace
ends it, and the end of the pattern ends an unterminated name. -/
def patNamesAux : Str → Option Str → List Str
  | [], none => []
  | [], some acc => [acc.reverse]
  | c :: rest, none =>
    if c = cLBrace then patNamesAux rest (some []) else patNamesAux rest none
  | c :: rest, some acc =>
    if c = cRBrace then acc.reverse :: patNamesAux rest none
    else patNamesAux rest (some (c :: acc))

/-- The names of the named terms of a pattern, read left to right the way
the matcher scans: an opening brace starts a name running to the next
closing brace (the whole rest of the pattern when unterminated), and
scanning resumes after that closer. -/
def patNames (pattern : Str) : List Str := patNamesAux pattern none

example : patNames [123, 49, 125, 42] = [[49]] := by decide
example : patNames [97, 123, 49, 125, 98, 123, 50, 125] = [[49], [50]] := by decide
example : patNames [123, 97, 123, 98, 125, 99, 125] = [[97, 123, 98]] := by decide

/-- Claim C1, counterexample: the pattern of bytes for lbrace 1 rbrace star
holds exactly one named term, with the name of byte 49, yet matching it
against the two byte text ab succeeds with an empty capture list: the
capture of a named term immediately followed by another wildcard is never
finalized, so vars does not hold one entry per distinct named term. -/
theorem claim_C1_counterexample :
    patNames [123, 49, 125, 42] = [[49]] ∧
    Match [123, 49, 125, 42] [97, 98] [] = MRes.ok true [] := by decide

/-- Claim C1, amended: at a successful match from an initially empty
capture list, the capture list holds at most one entry per distinct name
(keys never duplicate); a named term immediately followed by a literal or
closing the pattern is bound to the span it consumed in the accepted
match, as in the five capture example from the test table, but a named
term immediately followed by another wildcard term may stay unbound. -/
theorem claim_C1_capture_list_amended :
    (∀ (pattern text : Str) (b : Bool) (v2 : Vars),
        Match pattern text [] = MRes.ok b v2 → (varsKeys v2).Nodup) ∧
    Match [97, 123, 49, 125, 98, 123, 50, 125, 99, 123, 51, 125, 100, 123, 52, 125,
        101, 123, 53, 125, 47, 102]
      [97, 120, 98, 120, 99, 120, 100, 120, 101, 47, 102] [] =
      MRes.ok true [([49], [120]), ([50], [120]), ([51], [120]), ([52], [120]), ([53], [])] := by
  constructor
  · intro p t b v2 h
    exact matchRun_nodup p t (matchFuel p t) initState [] b v2 (by simp [varsKeys]) h
  · decide

/-- Claim C1, witness: the single capture pattern matching abc binds one
entry and the resulting key list has no duplicates. -/
theorem claim_C1_capture_list_witness :
    Match [123, 49, 125] [97, 98, 99] [] = MRes.ok true [([49], [97, 98, 99])] ∧
    (varsKeys [([49], [97, 98, 99])]).Nodup :=
  ⟨by decide,
    claim_C1_capture_list_amended.1 [123, 49, 125] [97, 98, 99] true
      [([49], [97, 98, 99])] (by decide)⟩

/-- Claim C2, counterexample: the pattern lbrace n a m e with no closing
brace makes Match fault (the Go code slices pattern[px:nx] with nx below
px, a runtime panic) rather than treating the rest as the name and
returning a boolean. -/
theorem claim_C2_counterexample :
    Match [123, 110, 97, 109, 101] [120] [] = MRes.fault := by decide

/-- Claim C2, amended: Match returns a boolean and cannot fault for every
pattern in which each opening brace is followed by a later closing brace,
provided the pattern is non-empty or the text is empty; a reachable
unterminated opener faults on reversed slice bounds, and the empty
pattern against non-empty text faults on an out-of-range index. -/
theorem claim_C2_total_amended :
    ∀ (pattern text : Str) (vars : Vars),
      WfPattern pattern → (pattern ≠ [] ∨ text = []) →
      ∃ (b : Bool) (v2 : Vars), Match pattern text vars = MRes.ok b v2 := by
  intro p t v hwf hne
  by_cases hp : p = []
  · subst hp
    rcases hne with hne | hne
    · exact absurd rfl hne
    · subst hne
      exact ⟨true, v, rfl⟩
  · have hP : 0 < p.length := List.length_pos.mpr hp
    unfold Match
    exact matchRun_ok p t hwf hP (matchFuel p t) initState v (minv_init p t)
      (matchFuel_gt p t)

/-- Claim C2, witness: the well-formed pattern a star against the text abc
returns a boolean. -/
theorem claim_C2_total_witness :
    WfPattern [97, 42] ∧ (([97, 42] : Str) ≠ [] ∨ ([97, 98, 99] : Str) = []) ∧
    ∃ (b : Bool) (v2 : Vars), Match [97, 42] [97, 98, 99] [] = MRes.ok b v2 :=
  ⟨by decide, Or.inl (by decide),
    claim_C2_total_amended [97, 42] [97, 98, 99] [] (by decide) (Or.inl (by decide))⟩

/-- Claim C3: whenever Match returns false, the capture list handed back
to the caller is empty, regardless of what it held before the call and of
any bindings made during abandoned backtracking. -/
theorem claim_C3_failed_match_resets :
    ∀ (pattern text : Str) (vars v2 : Vars),
      Match pattern text vars = MRes.ok false v2 → v2 = [] := by
  intro p t v v2 h
  exact matchRun_false_nil p t (matchFuel p t) initState v v2 h

/-- Claim C3, witness: a failing literal match with a pre-populated
capture list hands back the empty list. -/
theorem claim_C3_failed_match_witness :
    Match [97] [98] [([120], [121])] = MRes.ok false [] ∧ ([] : Vars) = [] :=
  ⟨by decide, claim_C3_failed_match_resets [97] [98] [([120], [121])] [] (by decide)⟩

/-- Claim C4: the empty pattern matches the empty text, but against every
non-empty text the code faults reading pattern at index zero in the
backtrack branch instead of returning false as documented. -/
theorem claim_C4_empty_pattern :
    Match [] [] [] = MRes.ok true [] ∧
    (∀ (text : Str) (vars : Vars), text ≠ [] → Match [] text vars = MRes.fault) := by
  constructor
  · decide
  · intro t v ht
    have hlen : 0 < t.length := List.length_pos.mpr ht
    unfold Match
    obtain ⟨f, hf⟩ : ∃ f, matchFuel [] t = f + 1 :=
      ⟨matchFuel [] t - 1, by unfold matchFuel; omega⟩
    rw [hf]
    unfold matchRun
    rw [if_pos (by simp [initState]; omega)]
    have hstep : matchStep [] t initState = .fault := by
      unfold matchStep matchBacktrack
      simp [initState]
    rw [hstep]

/-- Claim C4, witness: the empty pattern against the one byte text a
faults. -/
theorem claim_C4_empty_pattern_witness :
    ([97] : Str) ≠ [] ∧ Match [] [97] [] = MRes.fault :=
  ⟨by decide, claim_C4_empty_pattern.2 [97] [] (by decide)⟩

/-- Claim C5: variable-length wildcards never match across the path
separator: the single star pattern accepts exactly the slash-free texts
with no capture, the single named-capture pattern accepts exactly the
slash-free texts binding the whole text, and in particular the pattern
a star slash b rejects a slash c slash b and accepts abc slash b. -/
theorem claim_C5_separator_boundary :
    (∀ (t : Str), Match patStar t [] =
        (if cSlash ∈ t then MRes.ok false [] else MRes.ok true [])) ∧
    (∀ (t : Str), Match patBr t [] =
        (if cSlash ∈ t then MRes.ok false [] else MRes.ok true [([49], t)])) ∧
    Match [97, 42, 47, 98] [97, 47, 99, 47, 98] [] = MRes.ok false [] ∧
    Match [97, 42, 47, 98] [97, 98, 99, 47, 98] [] = MRes.ok true [] := by
  refine ⟨fun t => match_star t [], fun t => ?_, by decide, by decide⟩
  rw [match_brace t []]
  split <;> rfl

/-- Claim C6: the question mark consumes one whole UTF-8 code point, not
one byte, never consumes a slash, and never matches at the end of the
text: one multi-byte code point satisfies one question mark but cannot
satisfy three, a slash is refused, and a trailing question mark against
an exhausted text fails. -/
theorem claim_C6_qmark_code_point :
    Match [97, 63, 98] [97, 226, 152, 186, 98] [] = MRes.ok true [] ∧
    Match [97, 63, 63, 63, 98] [97, 226, 152, 186, 98] [] = MRes.ok false [] ∧
    Match [97, 63, 98] [97, 47, 98] [] = MRes.ok false [] ∧
    Match [97, 63] [97] [] = MRes.ok false [] ∧
    Match [97, 63] [97, 226, 152, 186] [] = MRes.ok true [] := by decide

/-- Claim C7: a named term consuming a zero-length span at the end of the
pattern binds its variable to the empty string via the finalize step on
loop exit: pattern a lbrace 1 rbrace against text a succeeds and Get on
the name returns the empty string. -/
theorem claim_C7_zero_length_capture :
    Match [97, 123, 49, 125] [97] [] = MRes.ok true [([49], [])] ∧
    Vars.get [([49], [])] [49] = [] := by decide

/-- Claim C8: ServeHTTP looks the request method up normalized to upper
case and runs the registered handler on a hit; on a miss it sets the
Allow header to the comma-space join of a list that is sorted in the
bytewise string order, holds OPTIONS exactly once even when unregistered,
and holds exactly the upper-case forms of the registered methods
otherwise, and it writes status 405 exactly when the normalized method is
not OPTIONS. -/
theorem claim_C8_dispatch (α : Type) (route : List (Str × α)) (rm : Str) :
    (∀ (h : α), mapLookup route (goToUpper rm) = some h →
      serveHTTP route rm = DispatchRes.handled h) ∧
    (mapLookup route (goToUpper rm) = none →
      ∃ (allow : List Str) (wrote : Bool),
        serveHTTP route rm = DispatchRes.notAllowed (joinCS allow) wrote ∧
        (wrote = true ↔ goToUpper rm ≠ mOPTIONS) ∧
        List.Sorted (fun a b => strLe a b = true) allow ∧
        (allow.filter (fun x => decide (x = mOPTIONS))).length = 1 ∧
        (∀ (m : Str), m ∈ allow ↔
          (m = mOPTIONS ∨ (m ∈ route.map (fun p => goToUpper p.1) ∧ m ≠ mOPTIONS)))) := by
  constructor
  · intro h hl
    unfold serveHTTP
    rw [hl]
  · intro hl
    refine ⟨allowList route, decide (goToUpper rm ≠ mOPTIONS), ?_, ?_,
      allowList_sorted route, allowList_count route, allowList_mem route⟩
    · unfold serveHTTP
      rw [hl]
    · exact decide_eq_true_iff

/-- Claim C8, witness: with only GET registered, the lower-case request
get is dispatched to the GET handler, and the request put receives the
Allow header with the 405 status. -/
theorem claim_C8_dispatch_witness :
    (mapLookup [([71, 69, 84], (0 : Nat))] (goToUpper [103, 101, 116]) = some 0 ∧
      serveHTTP [([71, 69, 84], (0 : Nat))] [103, 101, 116] = DispatchRes.handled 0) ∧
    (mapLookup [([71, 69, 84], (0 : Nat))] (goToUpper [112, 117, 116]) = none ∧
      ∃ (allow : List Str) (wrote : Bool),
        serveHTTP [([71, 69, 84], (0 : Nat))] [112, 117, 116]
          = DispatchRes.notAllowed (joinCS allow) wrote ∧
        (wrote = true ↔ goToUpper [112, 117, 116] ≠ mOPTIONS) ∧
        List.Sorted (fun a b => strLe a b = true) allow ∧
        (allow.filter (fun x => decide (x = mOPTIONS))).length = 1 ∧
        (∀ (m : Str), m ∈ allow ↔
          (m = mOPTIONS ∨
            (m ∈ [([71, 69, 84], (0 : Nat))].map (fun p => goToUpper p.1) ∧
              m ≠ mOPTIONS)))) :=
  ⟨⟨by decide,
      (claim_C8_dispatch Nat [([71, 69, 84], 0)] [103, 101, 116]).1 0 (by decide)⟩,
    ⟨by decide,
      (claim_C8_dispatch Nat [([71, 69, 84], 0)] [112, 117, 116]).2 (by decide)⟩⟩

/-- Claim C9: Match terminates for every pattern, text and capture list:
the loop bound matchFuel, one more than the rank of the initial state, is
never exhausted, because every resume from the retry point strictly
increases the saved resume position, which the rank tracks. -/
theorem claim_C9_termination :
    ∀ (pattern text : Str) (vars : Vars), Match pattern text vars ≠ MRes.timeout := by
  intro p t v
  unfold Match
  exact matchRun_ne_timeout p t (matchFuel p t) initState v (minv_init p t)
    (matchFuel_gt p t)

/-- Claim C10: the outcome of Match with the capture list erased, in
particular the boolean result, does not depend on the initial contents of
the capture list: the loop only writes to vars and never reads it. -/
theorem claim_C10_vars_independent :
    ∀ (pattern text : Str) (v1 v2 : Vars),
      resKind (Match pattern text v1) = resKind (Match pattern text v2) := by
  intro p t v1 v2
  unfold Match
  exact matchRun_kind_const p t (matchFuel p t) initState v1 v2

end Mux
